import Mathlib

/-!
Verification of the image-search vector store of this repository.

The definitions below are a shallow embedding of
`src/app/domains/image_search/vectordb.py` (class `VectorliteVectorIndex`),
of the restore logic in `src/app/lifespan.py`
(`_image_search_restore_db_from_r2`), of the concurrency-gate registry in
`src/app/core/concurrency/limits.py` (`ModelSemaphoreRegistry`), and of the
relevant parts of `src/app/domains/image_search/service.py`.

Modelling conventions:
- Each SQLite table keyed by `internal_id INTEGER PRIMARY KEY` is an
  association list `List (Nat × α)` kept sorted by strictly increasing key
  (the canonical order in which SQLite stores and returns rows keyed by
  rowid).  `alSet` models `INSERT ... ON CONFLICT ... DO UPDATE` (and plain
  `INSERT` of a fresh key); `alRemove` models `DELETE ... WHERE internal_id = ?`;
  `alGet` models `SELECT ... WHERE internal_id = ?`.
- SQLite allocates the rowid for a row inserted without an explicit
  `internal_id` (and without AUTOINCREMENT) as one more than the largest
  rowid currently in the table; `maxId` + 1 models this.
- Embeddings are `List ℚ`.  The vectorlite virtual table `v_images` is
  declared with cosine distance: the distance between `q` and `v` is
  `1 - cosθ` where `cosθ = dot q v / (normq * normv)`.  To stay inside ℚ we
  represent the cosine by the strictly monotone encoding
  `simScore q v = sign(cosθ) * cosθ²` (`cosDist = 1 - simScore`), which
  preserves the ordering of distances exactly and satisfies
  `cosDist q v = 0 ↔ cosθ = 1`; the claims under verification only depend
  on the ordering of distances and on the value at an exact match.
- `knn_search(v.embedding, knn_param(?, k))` is modelled as exact k-nearest
  neighbours (distance ascending, rowid as deterministic tie break); the
  spec treats the HNSW index as an ANN structure whose acceptable test
  property is ordering of scores, and the exact model is its idealisation.
- Python exceptions are `Except String`; a raising call made inside
  `with self.conn:` rolls the transaction back, so an erroring operation
  leaves the store unchanged.
-/

/-- A stored embedding: a vector of rationals (the model of `float32[d]`). -/
abbrev Emb := List ℚ

/-- Mirror of the frozen dataclass `ImageRecord` in `vectordb.py`. -/
structure ImageRecord where
  project_id : String
  id : String
  r2_key : String
  content_type : String
  original_filename : Option String
  size_bytes : Int
deriving DecidableEq

/-- The columns of table `image_records` (those not taken from `image_ids`). -/
structure RecordRow where
  r2_key : String
  content_type : String
  original_filename : Option String
  size_bytes : Int
deriving DecidableEq

/-- The `image_records` row written for an `ImageRecord` by `upsert_image`. -/
def ImageRecord.row (r : ImageRecord) : RecordRow :=
  ⟨r.r2_key, r.content_type, r.original_filename, r.size_bytes⟩

/-- Rebuild an `ImageRecord` from an `image_ids` row joined with an
`image_records` row, as the `SELECT ... JOIN` statements of `get_record`,
`list_records` and `search_records` do. -/
def RecordRow.toRecord (row : RecordRow) (pid iid : String) : ImageRecord :=
  ⟨pid, iid, row.r2_key, row.content_type, row.original_filename, row.size_bytes⟩

/-- Insert or replace the row with key `k` in a table sorted by key
(`INSERT ... ON CONFLICT(internal_id) DO UPDATE`, or `INSERT` of a fresh key). -/
def alSet {α : Type} (k : ℕ) (v : α) : List (ℕ × α) → List (ℕ × α)
  | [] => [(k, v)]
  | (k', v') :: rest =>
    if k < k' then (k, v) :: (k', v') :: rest
    else if k = k' then (k, v) :: rest
    else (k', v') :: alSet k v rest

/-- Delete every row with key `k` (`DELETE ... WHERE internal_id = ?`). -/
def alRemove {α : Type} (k : ℕ) (l : List (ℕ × α)) : List (ℕ × α) :=
  l.filter (fun e => e.1 ≠ k)

/-- Look up the row with key `k` (`SELECT ... WHERE internal_id = ?`). -/
def alGet {α : Type} (k : ℕ) (l : List (ℕ × α)) : Option α :=
  (l.find? (fun e => e.1 = k)).map (·.2)

/-- The keys (rowids) of a table. -/
def keys {α : Type} (l : List (ℕ × α)) : List ℕ := l.map Prod.fst

/-- The whole durable state of one `VectorliteVectorIndex` store:
configuration `dim` (`vector_dim`), the `schema_version` singleton
(`0` when the row is absent), and the five tables. -/
structure Store where
  dim : ℕ
  schemaVersion : ℕ
  projects : List String
  imageIds : List (ℕ × String × String)
  imageRecords : List (ℕ × RecordRow)
  imageVectors : List (ℕ × Emb)
  vIndex : List (ℕ × Emb)
deriving DecidableEq

/-- Mirror of `SCHEMA_VERSION = 4`. -/
def SCHEMA_VERSION : ℕ := 4

/-- A freshly initialised store: current schema version, every table empty. -/
def emptyStore (dim : ℕ) : Store :=
  ⟨dim, SCHEMA_VERSION, [], [], [], [], []⟩

/-- Well-formedness maintained by SQLite's constraints: every table is
sorted by strictly increasing rowid (hence rowids are unique), and
`UNIQUE(project_id, image_id)` holds on `image_ids`. -/
def sortedKeys {α : Type} (l : List (ℕ × α)) : Prop :=
  l.Pairwise (fun a b => a.1 < b.1)

def Store.WF (s : Store) : Prop :=
  sortedKeys s.imageIds ∧ sortedKeys s.imageRecords ∧
  sortedKeys s.imageVectors ∧ sortedKeys s.vIndex ∧
  s.imageIds.Pairwise (fun a b => a.2 ≠ b.2)

instance {α : Type} [DecidableEq α] (l : List (ℕ × α)) : Decidable (sortedKeys l) := by
  unfold sortedKeys; infer_instance

instance (s : Store) : Decidable s.WF := by
  unfold Store.WF; infer_instance

/-! ### Operations of `VectorliteVectorIndex` -/

/-- `ensure_project`: `INSERT OR IGNORE INTO projects(project_id) VALUES (?)`. -/
def ensure_project (s : Store) (pid : String) : Store :=
  if pid ∈ s.projects then s else { s with projects := s.projects ++ [pid] }

/-- `project_exists`. -/
def project_exists (s : Store) (pid : String) : Bool :=
  pid ∈ s.projects

/-- `_rowid_for_image_id`: `SELECT internal_id FROM image_ids WHERE
project_id = ? AND image_id = ?` (at most one row by the UNIQUE constraint). -/
def rowid_for_image_id (s : Store) (pid iid : String) : Option ℕ :=
  (s.imageIds.find? (fun e => e.2 = (pid, iid))).map (·.1)

/-- The largest rowid currently in a table (0 when empty). -/
def maxId {α : Type} (l : List (ℕ × α)) : ℕ :=
  l.foldl (fun m e => max m e.1) 0

/-- `_ensure_rowid`: ensures the project, then `INSERT OR IGNORE INTO
image_ids(project_id, image_id)` and re-reads the internal id.  A fresh row of
`image_ids` (whose `internal_id INTEGER PRIMARY KEY` carries no AUTOINCREMENT)
receives rowid `max existing rowid + 1`, per SQLite's rowid allocation.
The `RuntimeError` branch (`rowid is None` after the insert) is unreachable.
Returns the updated store and the internal id. -/
def ensure_rowid (s : Store) (pid iid : String) : Store × ℕ :=
  let s1 := ensure_project s pid
  match rowid_for_image_id s1 pid iid with
  | some r => (s1, r)
  | none =>
    let r := maxId s1.imageIds + 1
    ({ s1 with imageIds := alSet r (pid, iid) s1.imageIds }, r)

/-- `upsert_image`: validates the vector shape before touching the database,
then, in one transaction, ensures the project, resolves the internal id,
replaces the `v_images` row (`DELETE` then `INSERT`), and upserts the
`image_vectors` and `image_records` rows.  The source raises
`ValueError(f"Unexpected vector shape: ...")` on a shape mismatch. -/
def upsert_image (s : Store) (record : ImageRecord) (vector : Emb) :
    Except String Store :=
  if vector.length ≠ s.dim then .error "Unexpected vector shape"
  else
    let s1 := ensure_project s record.project_id
    let p := ensure_rowid s1 record.project_id record.id
    let s2 := p.1
    let rowid := p.2
    .ok { s2 with
      vIndex := alSet rowid vector (alRemove rowid s2.vIndex),
      imageVectors := alSet rowid vector s2.imageVectors,
      imageRecords := alSet rowid record.row s2.imageRecords }

/-- `delete_image`: in one transaction, if the `(project_id, image_id)` pair
resolves to an internal id, deletes that id's rows from `v_images`,
`image_ids`, `image_vectors` and `image_records`; otherwise does nothing. -/
def delete_image (s : Store) (pid iid : String) : Store :=
  match rowid_for_image_id s pid iid with
  | none => s
  | some r =>
    { s with
      vIndex := alRemove r s.vIndex,
      imageIds := alRemove r s.imageIds,
      imageVectors := alRemove r s.imageVectors,
      imageRecords := alRemove r s.imageRecords }

/-- `get_record`: the `image_ids ⋈ image_records` join filtered on
`(project_id, image_id)`. -/
def get_record (s : Store) (pid iid : String) : Option ImageRecord :=
  match rowid_for_image_id s pid iid with
  | none => none
  | some r => (alGet r s.imageRecords).map (fun row => row.toRecord pid iid)

/-! ### Schema initialisation and index materialisation -/

/-- `_init_schema`: reads the `schema_version` singleton (`0` when the row is
absent); when it differs from `SCHEMA_VERSION`, drops every table
(`v_images`, `projects`, `image_ids`, `image_vectors`, `image_records`) and
writes the current version; the following `CREATE TABLE IF NOT EXISTS`
statements leave surviving tables untouched and create dropped ones empty. -/
def init_schema (s : Store) : Store :=
  if s.schemaVersion ≠ SCHEMA_VERSION then
    { s with
      schemaVersion := SCHEMA_VERSION,
      projects := [], imageIds := [], imageRecords := [],
      imageVectors := [], vIndex := [] }
  else s

/-- `_recreate_virtual_table`: `DROP TABLE IF EXISTS v_images` followed by
re-creation, leaving the virtual index empty. -/
def recreate_virtual_table (s : Store) : Store :=
  { s with vIndex := [] }

/-- `rebuild_vector_index_from_vectors`: reads every `(internal_id, embedding)`
row of `image_vectors`; when there are none, returns immediately; otherwise
recreates the empty virtual table and inserts every ledger row. -/
def rebuild_vector_index_from_vectors (s : Store) : Store :=
  if s.imageVectors = [] then s
  else
    let s1 := recreate_virtual_table s
    { s1 with
      vIndex := s.imageVectors.foldl (fun acc kv => alSet kv.1 kv.2 acc) s1.vIndex }

/-- `_ensure_vector_index_materialized`: rebuilds only when the ledger is
non-empty and the virtual index is empty. -/
def ensure_vector_index_materialized (s : Store) : Store :=
  if s.imageVectors.length ≤ 0 then s
  else if 0 < s.vIndex.length then s
  else rebuild_vector_index_from_vectors s

/-- Opening a store (`__init__`): `_init_schema` followed by
`_ensure_vector_index_materialized`. -/
def openStore (s : Store) : Store :=
  ensure_vector_index_materialized (init_schema s)

/-! ### Similarity and search -/

/-- Dot product of two embeddings. -/
def dot (a b : Emb) : ℚ :=
  (List.zipWith (· * ·) a b).sum

/-- Rational encoding of the cosine similarity used by the `cosine`-distance
virtual table: `sign(cosθ) * cosθ²` where
`cosθ = dot q v / (‖q‖ * ‖v‖)`.  The map `x ↦ sign(x) * x²` is strictly
increasing on `[-1, 1]`, so this encoding orders any set of candidate
vectors exactly as the true cosine similarity does, and it equals `1`
exactly when `cosθ = 1`.  Degenerate zero vectors score `0`. -/
def simScore (q v : Emb) : ℚ :=
  let d := dot q v
  let n := dot q q * dot v v
  if n = 0 then 0
  else if 0 ≤ d then d ^ 2 / n else -(d ^ 2 / n)

/-- The distance reported by the cosine-distance index, in the same
monotone encoding: `1 - simScore` (so `0` at an exact directional match,
positive otherwise, ordered as the true cosine distance `1 - cosθ`). -/
def cosDist (q v : Emb) : ℚ :=
  1 - simScore q v

/-- The order in which `knn_search` ranks index entries for query `q`:
ascending distance, with the rowid as the deterministic tie break. -/
def knnLE (q : Emb) (a b : ℕ × Emb) : Prop :=
  cosDist q a.2 < cosDist q b.2 ∨ (cosDist q a.2 = cosDist q b.2 ∧ a.1 ≤ b.1)

instance (q : Emb) : DecidableRel (knnLE q) := by
  unfold knnLE; infer_instance

instance (q : Emb) : IsTotal (ℕ × Emb) (knnLE q) where
  total a b := by
    unfold knnLE
    rcases lt_trichotomy (cosDist q a.2) (cosDist q b.2) with h | h | h
    · exact Or.inl (Or.inl h)
    · rcases Nat.le_total a.1 b.1 with h1 | h1
      · exact Or.inl (Or.inr ⟨h, h1⟩)
      · exact Or.inr (Or.inr ⟨h.symm, h1⟩)
    · exact Or.inr (Or.inl h)

instance (q : Emb) : IsTrans (ℕ × Emb) (knnLE q) where
  trans a b c hab hbc := by
    unfold knnLE at *
    rcases hab with hab | ⟨hab, hab'⟩ <;> rcases hbc with hbc | ⟨hbc, hbc'⟩
    · exact Or.inl (hab.trans hbc)
    · exact Or.inl (hbc ▸ hab)
    · exact Or.inl (hab ▸ hbc)
    · exact Or.inr ⟨hab.trans hbc, hab'.trans hbc'⟩

/-- `knn_search(v.embedding, knn_param(q, k))`: the `k` index entries nearest
to `q` in ascending distance order. -/
def knn_search (s : Store) (q : Emb) (k : ℕ) : List (ℕ × Emb) :=
  (List.insertionSort (knnLE q) s.vIndex).take k

/-- Descending order on returned similarities (the final
`results.sort(key=lambda x: x[1], reverse=True)`). -/
def simGE {α : Type} (a b : α × ℚ) : Prop :=
  b.2 ≤ a.2

instance {α : Type} : DecidableRel (α := α × ℚ) simGE := by
  unfold simGE; infer_instance

instance {α : Type} : IsTotal (α × ℚ) simGE where
  total a b := le_total b.2 a.2

instance {α : Type} : IsTrans (α × ℚ) simGE where
  trans _ _ _ hab hbc := le_trans hbc hab

/-- The row a `knn_search` hit contributes to the `search_records` result
set: it survives only when its rowid joins with `image_ids` (in the given
project) and with `image_records`; its score is `1 - distance`. -/
def searchRow (s : Store) (pid : String) (q : Emb) (e : ℕ × Emb) :
    Option (ImageRecord × ℚ) :=
  match alGet e.1 s.imageIds, alGet e.1 s.imageRecords with
  | some pi, some row =>
    if pi.1 = pid then some (row.toRecord pi.1 pi.2, 1 - cosDist q e.2)
    else none
  | _, _ => none

/-- `search_records`: returns `[]` for `limit <= 0` before any validation;
validates the query shape; joins the `k` nearest index entries with
`image_ids` (filtered on the project) and `image_records`; computes
`similarity = 1 - distance`; sorts descending by similarity. -/
def search_records (s : Store) (pid : String) (q : Emb) (limit : Int) :
    Except String (List (ImageRecord × ℚ)) :=
  if limit ≤ 0 then .ok []
  else if q.length ≠ s.dim then .error "Unexpected vector shape"
  else
    .ok (List.insertionSort simGE
      ((knn_search s q limit.toNat).filterMap (searchRow s pid q)))

/-- The row a `knn_search` hit contributes to the legacy unscoped `search`. -/
def searchRowUnscoped (s : Store) (q : Emb) (e : ℕ × Emb) :
    Option (String × ℚ) :=
  match alGet e.1 s.imageIds, alGet e.1 s.imageRecords with
  | some pi, some _ => some (pi.2, 1 - cosDist q e.2)
  | _, _ => none

/-- Legacy unscoped `search`: same shape checks and ordering, no project
filter, returns `(image_id, similarity)` pairs. -/
def search (s : Store) (q : Emb) (limit : Int) :
    Except String (List (String × ℚ)) :=
  if limit ≤ 0 then .ok []
  else if q.length ≠ s.dim then .error "Unexpected vector shape"
  else
    .ok (List.insertionSort simGE
      ((knn_search s q limit.toNat).filterMap (searchRowUnscoped s q)))

/-! ### Operation sequences, service layer, restore, concurrency gate -/

/-- A mutation of the store through the public write API. -/
inductive Op
  | upsert (record : ImageRecord) (vector : Emb)
  | del (pid iid : String)

/-- Apply one operation.  A raising `upsert_image` happens before or inside
the rolled-back transaction, so it leaves the store unchanged. -/
def applyOp (s : Store) : Op → Store
  | .upsert record vector =>
    match upsert_image s record vector with
    | .ok s' => s'
    | .error _ => s
  | .del pid iid => delete_image s pid iid

/-- Run a sequence of operations. -/
def runOps (s : Store) (ops : List Op) : Store :=
  ops.foldl applyOp s

/-- Outcome of the service-level `delete_image` in `service.py` (R2 blob
handling aside): `PROJECT_NOT_FOUND` and `NOT_FOUND` are the raised
`AppError`s; `deleted` carries the store after `vector_index.delete_image`. -/
inductive DeleteOutcome
  | projectNotFound
  | notFound
  | deleted (s : Store)
deriving DecidableEq

/-- `service.delete_image`: under the lock, raises `PROJECT_NOT_FOUND` when
the project does not exist, reads the record, deletes only when the record
exists, and raises `NOT_FOUND` (leaving the store as read) when it does not. -/
def service_delete_image (s : Store) (pid iid : String) : DeleteOutcome :=
  if ¬ project_exists s pid then .projectNotFound
  else
    match get_record s pid iid with
    | none => .notFound
    | some _ => .deleted (delete_image s pid iid)

/-- Model of `_image_search_restore_db_from_r2` in `lifespan.py`, run once at
startup before the store is opened.  The local database file is
`Option String` (`none` = no file; `some c` = a file whose contents are `c`,
of size `c.length`), the attempted download is `Option String`
(`none` = `r2.download_file` raised).  The function keeps the local file
when R2 is not configured or when the file exists non-empty; otherwise it
downloads to a temporary file and atomically replaces the local file on
success, and leaves the local state untouched on failure. -/
def restore_db_from_r2 (r2Enabled : Bool) (file : Option String)
    (download : Option String) : Option String :=
  if ¬ r2Enabled then file
  else
    match file with
    | some c =>
      if 0 < c.length then some c
      else match download with
        | none => file
        | some d => some d
    | none =>
      match download with
      | none => none
      | some d => some d

/-- Mirror of `IMAGE_SEARCH_KEY`. -/
def IMAGE_SEARCH_KEY : String := "image_search"

/-- `ModelSemaphoreRegistry._limits`: a name-keyed dictionary; the value
retains the semaphore's configured concurrency bound. -/
abbrev Registry := List (String × ℕ)

/-- `ModelSemaphoreRegistry.register`: rejects `max_concurrency < 1`,
otherwise stores a fresh semaphore under the name (replacing any previous
binding, as dictionary assignment does). -/
def registryRegister (r : Registry) (name : String) (maxConcurrency : ℕ) :
    Except String Registry :=
  if maxConcurrency < 1 then .error "max_concurrency must be >= 1"
  else .ok ((name, maxConcurrency) :: r.filter (fun e => e.1 ≠ name))

/-- `ModelSemaphoreRegistry.get`: `self._limits[name]`; `none` models the
`KeyError` raised for a never-registered name.  (Gate exhaustion is not an
error at all in the source: a full semaphore blocks the awaiting task.) -/
def registryGet (r : Registry) (name : String) : Option ℕ :=
  (r.find? (fun e => e.1 = name)).map (·.2)

/-- How an embedding call proceeds with respect to the Concurrency Gate. -/
inductive GatePlan
  | gated (slots : ℕ)
  | ungated
deriving DecidableEq

/-- The gate-acquisition step shared by `register_image` and `search_images`
in `service.py`: `try: limit = request.app.state.limits.get(IMAGE_SEARCH_KEY)
except Exception: limit = None`, then the embedding runs inside the
semaphore when a limit was found and entirely ungated otherwise. -/
def search_images_gate (limits : Registry) : GatePlan :=
  match registryGet limits IMAGE_SEARCH_KEY with
  | some n => .gated n
  | none => .ungated

/-! ### Association-list lemmas -/

theorem mem_alSet {α : Type} {k : ℕ} {v : α} {l : List (ℕ × α)} {x : ℕ × α}
    (hx : x ∈ alSet k v l) : x = (k, v) ∨ x ∈ l := by
  induction l with
  | nil => simpa [alSet] using hx
  | cons e rest ih =>
    unfold alSet at hx
    split at hx
    · rcases List.mem_cons.mp hx with h | h
      · exact Or.inl h
      · exact Or.inr h
    · split at hx
      · rcases List.mem_cons.mp hx with h | h
        · exact Or.inl h
        · exact Or.inr (List.mem_cons_of_mem _ h)
      · rcases List.mem_cons.mp hx with h | h
        · exact Or.inr (h ▸ List.mem_cons_self _ _)
        · rcases ih h with h' | h'
          · exact Or.inl h'
          · exact Or.inr (List.mem_cons_of_mem _ h')

theorem self_mem_alSet {α : Type} (k : ℕ) (v : α) (l : List (ℕ × α)) :
    (k, v) ∈ alSet k v l := by
  induction l with
  | nil => simp [alSet]
  | cons e rest ih =>
    unfold alSet
    split
    · exact List.mem_cons_self _ _
    · split
      · exact List.mem_cons_self _ _
      · exact List.mem_cons_of_mem _ ih

theorem mem_alRemove {α : Type} {k : ℕ} {l : List (ℕ × α)} {x : ℕ × α}
    (hx : x ∈ alRemove k l) : x ∈ l ∧ x.1 ≠ k := by
  unfold alRemove at hx
  have := List.mem_filter.mp hx
  exact ⟨this.1, by simpa using this.2⟩

theorem sorted_alSet {α : Type} {k : ℕ} {v : α} {l : List (ℕ × α)}
    (hl : sortedKeys l) : sortedKeys (alSet k v l) := by
  induction l with
  | nil => simp [alSet, sortedKeys]
  | cons e rest ih =>
    rw [sortedKeys, List.pairwise_cons] at hl
    unfold alSet
    split
    · rename_i hk
      refine List.Pairwise.cons ?_ (List.Pairwise.cons hl.1 hl.2)
      intro b hb
      rcases List.mem_cons.mp hb with h | h
      · exact h ▸ hk
      · exact lt_trans hk (hl.1 b h)
    · split
      · rename_i hk
        exact List.Pairwise.cons (fun b hb => hk ▸ hl.1 b hb) hl.2
      · rename_i hk1 hk2
        have hek : e.1 < k := by omega
        refine List.Pairwise.cons ?_ (ih hl.2)
        intro b hb
        rcases mem_alSet hb with h | h
        · rw [h]; exact hek
        · exact hl.1 b h

theorem sorted_alRemove {α : Type} {k : ℕ} {l : List (ℕ × α)}
    (hl : sortedKeys l) : sortedKeys (alRemove k l) :=
  List.Pairwise.sublist (List.filter_sublist l) hl

theorem alGet_alSet_self {α : Type} (k : ℕ) (v : α) (l : List (ℕ × α)) :
    alGet k (alSet k v l) = some v := by
  induction l with
  | nil => simp [alSet, alGet]
  | cons e rest ih =>
    unfold alSet
    split
    · simp [alGet]
    · split
      · simp [alGet]
      · rename_i hk1 hk2
        have hek : e.1 ≠ k := by omega
        unfold alGet at ih ⊢
        rw [List.find?_cons_of_neg _ (by simpa using hek)]
        exact ih

theorem alGet_alSet_ne {α : Type} {k k' : ℕ} (hne : k' ≠ k) (v : α)
    (l : List (ℕ × α)) : alGet k' (alSet k v l) = alGet k' l := by
  induction l with
  | nil =>
    simp only [alSet, alGet, List.find?_nil]
    rw [List.find?_cons_of_neg _ (by simp only [decide_eq_true_eq]; omega),
      List.find?_nil]
  | cons e rest ih =>
    unfold alSet
    split
    · unfold alGet
      rw [List.find?_cons_of_neg _ (by simp only [decide_eq_true_eq]; omega)]
    · split
      · rename_i hk
        unfold alGet
        rw [List.find?_cons_of_neg _ (by simp only [decide_eq_true_eq]; omega),
          List.find?_cons_of_neg _ (by simp only [decide_eq_true_eq]; omega)]
      · by_cases he : e.1 = k'
        · unfold alGet
          rw [List.find?_cons_of_pos _ (by simpa using he),
            List.find?_cons_of_pos _ (by simpa using he)]
        · unfold alGet at ih ⊢
          rw [List.find?_cons_of_neg _ (by simpa using he),
            List.find?_cons_of_neg _ (by simpa using he)]
          exact ih

theorem alGet_alRemove_self {α : Type} (k : ℕ) (l : List (ℕ × α)) :
    alGet k (alRemove k l) = none := by
  unfold alGet
  have h : List.find? (fun e => decide (e.1 = k)) (alRemove k l) = none := by
    rw [List.find?_eq_none]
    intro x hx
    have := (mem_alRemove hx).2
    simp [this]
  rw [h]
  rfl

theorem alGet_of_mem {α : Type} {k : ℕ} {v : α} {l : List (ℕ × α)}
    (hl : sortedKeys l) (hm : (k, v) ∈ l) : alGet k l = some v := by
  induction l with
  | nil => simp at hm
  | cons e rest ih =>
    rw [sortedKeys, List.pairwise_cons] at hl
    rcases List.mem_cons.mp hm with h | h
    · unfold alGet
      rw [← h, List.find?_cons_of_pos _ (by simp)]
      rfl
    · have hek : e.1 ≠ k := by
        intro he
        have := hl.1 _ h
        omega
      unfold alGet at ih ⊢
      rw [List.find?_cons_of_neg _ (by simpa using hek)]
      exact ih hl.2 h

theorem mem_of_alGet {α : Type} {k : ℕ} {v : α} {l : List (ℕ × α)}
    (h : alGet k l = some v) : (k, v) ∈ l := by
  unfold alGet at h
  cases hf : l.find? (fun e => e.1 = k) with
  | none => rw [hf] at h; simp at h
  | some e =>
    rw [hf] at h
    have hm := List.mem_of_find?_eq_some hf
    have hp : e.1 = k := by simpa using List.find?_some hf
    simp only [Option.map_some'] at h
    have : e = (k, v) := by
      cases e
      simp_all
    exact this ▸ hm

/-- The key list produced by inserting key `k` into a key list, mirroring
how `alSet` places or replaces the row. -/
def insKey (k : ℕ) : List ℕ → List ℕ
  | [] => [k]
  | k' :: rest =>
    if k < k' then k :: k' :: rest
    else if k = k' then k :: rest
    else k' :: insKey k rest

theorem keys_alSet {α : Type} (k : ℕ) (v : α) (l : List (ℕ × α)) :
    keys (alSet k v l) = insKey k (keys l) := by
  induction l with
  | nil => simp [alSet, insKey, keys]
  | cons e rest ih =>
    unfold alSet insKey
    split
    · rename_i h; simp only [keys, List.map_cons]; rw [if_pos h]
    · rename_i h1
      split
      · rename_i h2
        simp only [keys, List.map_cons]
        rw [if_neg h1, if_pos h2]
      · rename_i h2
        simp only [keys, List.map_cons]
        rw [if_neg h1, if_neg h2]
        simpa [keys] using ih

theorem mem_insKey {k x : ℕ} {l : List ℕ} :
    x ∈ insKey k l ↔ x = k ∨ x ∈ l := by
  induction l with
  | nil => simp [insKey]
  | cons k' rest ih =>
    unfold insKey
    split
    · simp
    · split
      · rename_i h1 h2
        subst h2
        simp
      · simp only [List.mem_cons, ih]
        tauto

theorem keys_alRemove {α : Type} (k : ℕ) (l : List (ℕ × α)) :
    keys (alRemove k l) = (keys l).filter (fun x => x ≠ k) := by
  induction l with
  | nil => simp [alRemove, keys]
  | cons e rest ih =>
    simp only [alRemove, keys, List.filter_cons, List.map_cons] at ih ⊢
    by_cases h : e.1 = k
    · simp only [h]
      rw [if_neg (by simp), if_neg (by simp)]
      exact ih
    · rw [if_pos (by simpa using h), if_pos (by simpa using h)]
      simpa [keys] using ih

theorem mem_keys_of_mem {α : Type} {l : List (ℕ × α)} {e : ℕ × α}
    (h : e ∈ l) : e.1 ∈ keys l :=
  List.mem_map_of_mem Prod.fst h

theorem le_foldl_max {α : Type} (l : List (ℕ × α)) :
    ∀ m : ℕ, m ≤ l.foldl (fun acc e => max acc e.1) m := by
  induction l with
  | nil => simp
  | cons e rest ih =>
    intro m
    simp only [List.foldl_cons]
    exact le_trans (le_max_left _ _) (ih _)

theorem foldl_max_le_of_mem {α : Type} {l : List (ℕ × α)} {x : ℕ × α}
    (hm : x ∈ l) : ∀ m, x.1 ≤ l.foldl (fun acc e => max acc e.1) m := by
  induction l with
  | nil => simp at hm
  | cons e rest ih =>
    intro m
    simp only [List.foldl_cons]
    rcases List.mem_cons.mp hm with h | h
    · subst h
      exact le_trans (le_max_right _ _) (le_foldl_max rest _)
    · exact ih h _

theorem lt_of_mem_keys_maxId {α : Type} {l : List (ℕ × α)} {x : ℕ}
    (hx : x ∈ keys l) : x < maxId l + 1 := by
  rcases List.mem_map.mp hx with ⟨e, he, hfst⟩
  have := foldl_max_le_of_mem he 0
  unfold maxId
  omega

theorem pairwiseNe_alSet {α : Type} {k : ℕ} {v : α} {l : List (ℕ × α)}
    (hl : l.Pairwise (fun a b => a.2 ≠ b.2)) (hv : ∀ e ∈ l, e.2 ≠ v) :
    (alSet k v l).Pairwise (fun a b => a.2 ≠ b.2) := by
  induction l with
  | nil => simp [alSet]
  | cons e rest ih =>
    rw [List.pairwise_cons] at hl
    unfold alSet
    split
    · refine List.Pairwise.cons ?_ (List.Pairwise.cons hl.1 hl.2)
      intro b hb
      exact fun hbad => hv b hb hbad.symm
    · split
      · refine List.Pairwise.cons ?_ hl.2
        intro b hb
        exact fun hbad => hv b (List.mem_cons_of_mem _ hb) hbad.symm
      · refine List.Pairwise.cons ?_
          (ih hl.2 (fun f hf => hv f (List.mem_cons_of_mem _ hf)))
        intro b hb
        rcases mem_alSet hb with h | h
        · rw [h]
          exact hv e (List.mem_cons_self _ _)
        · exact hl.1 b h

theorem find_pair_of_mem {β : Type} [DecidableEq β] {l : List (ℕ × β)}
    (hu : l.Pairwise (fun a b => a.2 ≠ b.2)) {r : ℕ} {p : β}
    (hm : (r, p) ∈ l) : l.find? (fun e => e.2 = p) = some (r, p) := by
  induction l with
  | nil => simp at hm
  | cons e rest ih =>
    rw [List.pairwise_cons] at hu
    by_cases he : e.2 = p
    · have : e = (r, p) := by
        rcases List.mem_cons.mp hm with h | h
        · exact h.symm
        · exact absurd he (hu.1 _ h ∘ (· ▸ rfl))
      rw [List.find?_cons_of_pos _ (by simpa using he), this]
    · have hm' : (r, p) ∈ rest := by
        rcases List.mem_cons.mp hm with h | h
        · exact absurd (h ▸ rfl : e.2 = p) he
        · exact h
      rw [List.find?_cons_of_neg _ (by simpa using he)]
      exact ih hu.2 hm'

theorem rowid_of_mem {s : Store} {r : ℕ} {pid iid : String}
    (hu : s.imageIds.Pairwise (fun a b => a.2 ≠ b.2))
    (hm : (r, (pid, iid)) ∈ s.imageIds) :
    rowid_for_image_id s pid iid = some r := by
  unfold rowid_for_image_id
  rw [find_pair_of_mem hu hm]
  rfl

theorem rowid_none_iff {s : Store} {pid iid : String} :
    rowid_for_image_id s pid iid = none ↔
      ∀ e ∈ s.imageIds, e.2 ≠ (pid, iid) := by
  unfold rowid_for_image_id
  constructor
  · intro h e he
    cases hf : s.imageIds.find? (fun e => e.2 = (pid, iid)) with
    | none =>
      have := List.find?_eq_none.mp hf e he
      simpa using this
    | some f => rw [hf] at h; simp at h
  · intro h
    have : s.imageIds.find? (fun e => e.2 = (pid, iid)) = none := by
      rw [List.find?_eq_none]
      intro e he
      simpa using h e he
    rw [this]
    rfl

theorem alSet_append {α : Type} {k : ℕ} {v : α} {acc : List (ℕ × α)}
    (h : ∀ e ∈ acc, e.1 < k) : alSet k v acc = acc ++ [(k, v)] := by
  induction acc with
  | nil => simp [alSet]
  | cons e rest ih =>
    have he := h e (List.mem_cons_self _ _)
    unfold alSet
    rw [if_neg (by omega), if_neg (by omega)]
    simp only [List.cons_append, List.cons.injEq, true_and]
    exact ih (fun f hf => h f (List.mem_cons_of_mem _ hf))

theorem foldl_alSet_sorted {α : Type} :
    ∀ (l acc : List (ℕ × α)), sortedKeys (acc ++ l) →
      l.foldl (fun a kv => alSet kv.1 kv.2 a) acc = acc ++ l := by
  intro l
  induction l with
  | nil => intro acc _; simp
  | cons e rest ih =>
    intro acc hs
    have hlt : ∀ f ∈ acc, f.1 < e.1 := by
      intro f hf
      rw [sortedKeys, List.pairwise_append] at hs
      exact hs.2.2 f hf e (List.mem_cons_self _ _)
    simp only [List.foldl_cons]
    rw [alSet_append hlt, ih (acc ++ [e]) (by simpa using hs)]
    simp

/-! ### Specification lemmas for the allocator and upsert -/

@[simp] theorem ensure_project_imageIds (s : Store) (pid : String) :
    (ensure_project s pid).imageIds = s.imageIds := by
  unfold ensure_project; split <;> rfl

@[simp] theorem ensure_project_imageRecords (s : Store) (pid : String) :
    (ensure_project s pid).imageRecords = s.imageRecords := by
  unfold ensure_project; split <;> rfl

@[simp] theorem ensure_project_imageVectors (s : Store) (pid : String) :
    (ensure_project s pid).imageVectors = s.imageVectors := by
  unfold ensure_project; split <;> rfl

@[simp] theorem ensure_project_vIndex (s : Store) (pid : String) :
    (ensure_project s pid).vIndex = s.vIndex := by
  unfold ensure_project; split <;> rfl

@[simp] theorem ensure_project_dim (s : Store) (pid : String) :
    (ensure_project s pid).dim = s.dim := by
  unfold ensure_project; split <;> rfl

@[simp] theorem ensure_project_schemaVersion (s : Store) (pid : String) :
    (ensure_project s pid).schemaVersion = s.schemaVersion := by
  unfold ensure_project; split <;> rfl

theorem ensure_project_mem (s : Store) (pid : String) :
    pid ∈ (ensure_project s pid).projects := by
  unfold ensure_project
  split
  · assumption
  · simp

theorem rowid_for_ensure_project (s : Store) (pid' pid iid : String) :
    rowid_for_image_id (ensure_project s pid') pid iid =
      rowid_for_image_id s pid iid := by
  unfold rowid_for_image_id
  rw [ensure_project_imageIds]

theorem mem_of_rowid_some {s : Store} {pid iid : String} {r : ℕ}
    (h : rowid_for_image_id s pid iid = some r) :
    (r, (pid, iid)) ∈ s.imageIds := by
  unfold rowid_for_image_id at h
  cases hf : s.imageIds.find? (fun e => e.2 = (pid, iid)) with
  | none => rw [hf] at h; simp at h
  | some f =>
    rw [hf] at h
    have hm := List.mem_of_find?_eq_some hf
    have hp : f.2 = (pid, iid) := by simpa using List.find?_some hf
    have hr : f.1 = r := by simpa using h
    have : f = (r, (pid, iid)) := by
      cases f; simp_all
    exact this ▸ hm

/-- The internal id chosen by `_ensure_rowid` for `record`'s pair, and the
`image_ids` table it leaves behind. -/
def upsertRid (s : Store) (record : ImageRecord) : ℕ :=
  (ensure_rowid (ensure_project s record.project_id)
    record.project_id record.id).2

def upsertIds (s : Store) (record : ImageRecord) :
    List (ℕ × String × String) :=
  (ensure_rowid (ensure_project s record.project_id)
    record.project_id record.id).1.imageIds

/-- The store produced by a successful `upsert_image`. -/
def upsertState (s : Store) (record : ImageRecord) (vector : Emb) : Store :=
  let p := ensure_rowid (ensure_project s record.project_id)
    record.project_id record.id
  { p.1 with
    vIndex := alSet p.2 vector (alRemove p.2 p.1.vIndex),
    imageVectors := alSet p.2 vector p.1.imageVectors,
    imageRecords := alSet p.2 record.row p.1.imageRecords }

theorem upsert_image_eq_ok (s : Store) (record : ImageRecord) (vector : Emb)
    (hdim : vector.length = s.dim) :
    upsert_image s record vector = .ok (upsertState s record vector) := by
  unfold upsert_image upsertState
  rw [if_neg (by omega)]

theorem ensure_rowid_cases (s : Store) (pid iid : String) :
    (ensure_rowid s pid iid).1.imageIds = s.imageIds ∧
      rowid_for_image_id s pid iid = some (ensure_rowid s pid iid).2 ∨
    rowid_for_image_id s pid iid = none ∧
      (ensure_rowid s pid iid).2 = maxId s.imageIds + 1 ∧
      (ensure_rowid s pid iid).1.imageIds =
        alSet (maxId s.imageIds + 1) (pid, iid) s.imageIds := by
  unfold ensure_rowid
  cases h : rowid_for_image_id (ensure_project s pid) pid iid with
  | some r =>
    have h' := h
    rw [rowid_for_ensure_project] at h'
    left
    simp [h, h']
  | none =>
    have h' := h
    rw [rowid_for_ensure_project] at h'
    right
    refine ⟨h', ?_, ?_⟩ <;> simp [h, maxId, ensure_project_imageIds]

@[simp] theorem ensure_rowid_imageRecords (s : Store) (pid iid : String) :
    (ensure_rowid s pid iid).1.imageRecords = s.imageRecords := by
  unfold ensure_rowid
  cases h : rowid_for_image_id (ensure_project s pid) pid iid <;> simp [h]

@[simp] theorem ensure_rowid_imageVectors (s : Store) (pid iid : String) :
    (ensure_rowid s pid iid).1.imageVectors = s.imageVectors := by
  unfold ensure_rowid
  cases h : rowid_for_image_id (ensure_project s pid) pid iid <;> simp [h]

@[simp] theorem ensure_rowid_vIndex (s : Store) (pid iid : String) :
    (ensure_rowid s pid iid).1.vIndex = s.vIndex := by
  unfold ensure_rowid
  cases h : rowid_for_image_id (ensure_project s pid) pid iid <;> simp [h]

@[simp] theorem ensure_rowid_dim (s : Store) (pid iid : String) :
    (ensure_rowid s pid iid).1.dim = s.dim := by
  unfold ensure_rowid
  cases h : rowid_for_image_id (ensure_project s pid) pid iid <;> simp [h]

@[simp] theorem ensure_rowid_schemaVersion (s : Store) (pid iid : String) :
    (ensure_rowid s pid iid).1.schemaVersion = s.schemaVersion := by
  unfold ensure_rowid
  cases h : rowid_for_image_id (ensure_project s pid) pid iid <;> simp [h]

theorem ensure_rowid_mem (s : Store) (pid iid : String) :
    ((ensure_rowid s pid iid).2, (pid, iid)) ∈
      (ensure_rowid s pid iid).1.imageIds := by
  rcases ensure_rowid_cases s pid iid with ⟨hids, hsome⟩ | ⟨_, hr, hids⟩
  · rw [hids]
    exact mem_of_rowid_some hsome
  · rw [hids, hr]
    exact self_mem_alSet _ _ _

theorem ensure_rowid_ids_sorted {s : Store} (pid iid : String)
    (hs : sortedKeys s.imageIds) :
    sortedKeys (ensure_rowid s pid iid).1.imageIds := by
  rcases ensure_rowid_cases s pid iid with ⟨hids, _⟩ | ⟨_, _, hids⟩
  · rw [hids]; exact hs
  · rw [hids]; exact sorted_alSet hs

theorem ensure_rowid_ids_unique {s : Store} (pid iid : String)
    (hu : s.imageIds.Pairwise (fun a b => a.2 ≠ b.2)) :
    (ensure_rowid s pid iid).1.imageIds.Pairwise (fun a b => a.2 ≠ b.2) := by
  rcases ensure_rowid_cases s pid iid with ⟨hids, _⟩ | ⟨hnone, _, hids⟩
  · rw [hids]; exact hu
  · rw [hids]
    exact pairwiseNe_alSet hu (rowid_none_iff.mp hnone)

theorem ensure_rowid_ids_superset {s : Store} (pid iid : String) {x : ℕ}
    (hx : x ∈ keys s.imageIds) :
    x ∈ keys (ensure_rowid s pid iid).1.imageIds := by
  rcases ensure_rowid_cases s pid iid with ⟨hids, _⟩ | ⟨_, _, hids⟩
  · rw [hids]; exact hx
  · rw [hids, keys_alSet, mem_insKey]
    exact Or.inr hx

theorem upsertState_imageIds (s : Store) (record : ImageRecord) (v : Emb) :
    (upsertState s record v).imageIds = upsertIds s record := rfl

theorem upsertState_imageRecords (s : Store) (record : ImageRecord) (v : Emb) :
    (upsertState s record v).imageRecords =
      alSet (upsertRid s record) record.row s.imageRecords := by
  unfold upsertState upsertRid
  simp [ensure_rowid_imageRecords, ensure_project_imageRecords]

theorem upsertState_imageVectors (s : Store) (record : ImageRecord) (v : Emb) :
    (upsertState s record v).imageVectors =
      alSet (upsertRid s record) v s.imageVectors := by
  unfold upsertState upsertRid
  simp [ensure_rowid_imageVectors, ensure_project_imageVectors]

theorem upsertState_vIndex (s : Store) (record : ImageRecord) (v : Emb) :
    (upsertState s record v).vIndex =
      alSet (upsertRid s record) v (alRemove (upsertRid s record) s.vIndex) := by
  unfold upsertState upsertRid
  simp [ensure_rowid_vIndex, ensure_project_vIndex]

theorem upsertState_dim (s : Store) (record : ImageRecord) (v : Emb) :
    (upsertState s record v).dim = s.dim := by
  unfold upsertState
  simp [ensure_rowid_dim, ensure_project_dim]

theorem upsertRid_mem (s : Store) (record : ImageRecord) :
    (upsertRid s record, (record.project_id, record.id)) ∈
      upsertIds s record :=
  ensure_rowid_mem _ _ _

theorem upsertIds_sorted {s : Store} (record : ImageRecord)
    (hs : sortedKeys s.imageIds) : sortedKeys (upsertIds s record) := by
  unfold upsertIds
  exact ensure_rowid_ids_sorted _ _ (by simpa [ensure_project_imageIds] using hs)

theorem upsertIds_unique {s : Store} (record : ImageRecord)
    (hu : s.imageIds.Pairwise (fun a b => a.2 ≠ b.2)) :
    (upsertIds s record).Pairwise (fun a b => a.2 ≠ b.2) := by
  unfold upsertIds
  exact ensure_rowid_ids_unique _ _ (by simpa [ensure_project_imageIds] using hu)

theorem upsertIds_superset {s : Store} (record : ImageRecord) {x : ℕ}
    (hx : x ∈ keys s.imageIds) : x ∈ keys (upsertIds s record) := by
  unfold upsertIds
  exact ensure_rowid_ids_superset _ _ (by simpa [ensure_project_imageIds] using hx)

theorem upsertState_WF {s : Store} (record : ImageRecord) (v : Emb)
    (hWF : s.WF) : (upsertState s record v).WF := by
  obtain ⟨h1, h2, h3, h4, h5⟩ := hWF
  refine ⟨?_, ?_, ?_, ?_, ?_⟩
  · rw [upsertState_imageIds]; exact upsertIds_sorted record h1
  · rw [upsertState_imageRecords]; exact sorted_alSet h2
  · rw [upsertState_imageVectors]; exact sorted_alSet h3
  · rw [upsertState_vIndex]; exact sorted_alSet (sorted_alRemove h4)
  · rw [upsertState_imageIds]; exact upsertIds_unique record h5

/-! ### Similarity lemmas -/

theorem dot_self_nonneg (e : Emb) : 0 ≤ dot e e := by
  unfold dot
  induction e with
  | nil => simp
  | cons x rest ih =>
    simp only [List.zipWith_cons_cons, List.sum_cons]
    have := mul_self_nonneg x
    linarith

theorem simScore_self {e : Emb} (hnz : dot e e ≠ 0) : simScore e e = 1 := by
  unfold simScore
  rw [if_neg (by exact mul_ne_zero hnz hnz), if_pos (dot_self_nonneg e)]
  rw [sq]
  field_simp

theorem cosDist_self {e : Emb} (hnz : dot e e ≠ 0) : cosDist e e = 0 := by
  unfold cosDist
  rw [simScore_self hnz]
  ring

theorem cosDist_pos {q v : Emb} (h : simScore q v < 1) : 0 < cosDist q v := by
  unfold cosDist
  linarith

/-! ### Sorted-list head lemmas -/

theorem head_eq_of_sorted_min {α : Type} {le : α → α → Prop} {l : List α}
    (hs : l.Sorted le) {x : α} (hx : x ∈ l)
    (hmin : ∀ y ∈ l, y ≠ x → ¬ le y x) : l.head? = some x := by
  cases l with
  | nil => simp at hx
  | cons z rest =>
    by_cases hz : z = x
    · rw [hz]; rfl
    · rcases List.mem_cons.mp hx with h | h
      · exact absurd h.symm hz
      · have hle : le z x := List.rel_of_sorted_cons hs x h
        exact absurd hle (hmin z (List.mem_cons_self _ _) hz)

theorem head?_take {α : Type} {k : ℕ} (hk : 1 ≤ k) (l : List α) :
    (l.take k).head? = l.head? := by
  cases l with
  | nil => simp
  | cons x rest =>
    cases k with
    | zero => omega
    | succ n => simp

/-! ### Schema-reset helper -/

theorem openStore_reset (s : Store) (h : s.schemaVersion ≠ SCHEMA_VERSION) :
    openStore s = emptyStore s.dim := by
  unfold openStore init_schema
  rw [if_pos h]
  unfold ensure_vector_index_materialized
  simp [emptyStore]

/-! ### Concrete sample data shared by witnesses and counterexamples -/

def sampleRecord : ImageRecord :=
  ⟨"demo", "img-1", "AI/SEARCH/demo/img-1.jpg", "image/jpeg", none, 1234⟩

def recA : ImageRecord := ⟨"p", "a", "AI/SEARCH/p/a.jpg", "image/jpeg", none, 1⟩

def recB : ImageRecord := ⟨"p", "b", "AI/SEARCH/p/b.jpg", "image/jpeg", none, 2⟩

def recC : ImageRecord := ⟨"p", "c", "AI/SEARCH/p/c.jpg", "image/jpeg", none, 3⟩

def staleStore : Store :=
  ⟨1, 3, ["p"], [(1, ("p", "a"))], [(1, recA.row)], [(1, [1])], [(1, [1])]⟩

/-! ### Claim theorems -/

/-- C3: for every store and every embedding whose length differs from the
store's fixed dimension, `upsert_image` fails with the dimension-mismatch
`ValueError` and leaves the store completely unchanged — no vector row,
ledger row, record row, identity mapping or project row becomes visible
(the shape check precedes every database statement). -/
theorem c3_dimension_mismatch_rejected (s : Store) (record : ImageRecord)
    (v : Emb) (h : v.length ≠ s.dim) :
    upsert_image s record v = .error "Unexpected vector shape" ∧
    applyOp s (.upsert record v) = s := by
  have herr : upsert_image s record v = .error "Unexpected vector shape" := by
    unfold upsert_image
    rw [if_pos h]
  refine ⟨herr, ?_⟩
  show (match upsert_image s record v with
    | Except.ok s' => s'
    | Except.error _ => s) = s
  rw [herr]

/-- Witness for C3 at a concrete input: dimension-1 store, length-2 vector. -/
theorem c3_witness :
    ([1, 2] : Emb).length ≠ (emptyStore 1).dim ∧
    upsert_image (emptyStore 1) sampleRecord [1, 2] =
      .error "Unexpected vector shape" ∧
    applyOp (emptyStore 1) (.upsert sampleRecord [1, 2]) = emptyStore 1 :=
  ⟨by decide,
   (c3_dimension_mismatch_rejected (emptyStore 1) sampleRecord [1, 2] (by decide)).1,
   (c3_dimension_mismatch_rejected (emptyStore 1) sampleRecord [1, 2] (by decide)).2⟩

/-- C4: opening a store whose stored schema version differs from
`SCHEMA_VERSION` yields a store in which every table (virtual index,
projects, identity mapping, vector ledger, records) is empty and the stored
version tag equals the current constant. -/
theorem c4_schema_reset (s : Store) (h : s.schemaVersion ≠ SCHEMA_VERSION) :
    openStore s = emptyStore s.dim ∧
    (openStore s).schemaVersion = SCHEMA_VERSION ∧
    (openStore s).vIndex = [] ∧
    (openStore s).projects = [] ∧
    (openStore s).imageIds = [] ∧
    (openStore s).imageVectors = [] ∧
    (openStore s).imageRecords = [] := by
  have h0 := openStore_reset s h
  exact ⟨h0, by rw [h0]; rfl, by rw [h0]; rfl, by rw [h0]; rfl,
    by rw [h0]; rfl, by rw [h0]; rfl, by rw [h0]; rfl⟩

/-- Witness for C4: a version-3 store with one row in every table. -/
theorem c4_witness :
    staleStore.schemaVersion ≠ SCHEMA_VERSION ∧
    openStore staleStore = emptyStore 1 :=
  ⟨by decide, (c4_schema_reset staleStore (by decide)).1⟩

/-- C5 counterexample: internal ids ARE reused after deletion.  Upserting
`("p","a")` then `("p","b")` allocates internal ids 1 and 2; after deleting
`("p","b")` (which releases id 2, the largest), upserting the different pair
`("p","c")` is assigned internal id 2 again — `image_ids` has no
AUTOINCREMENT, and SQLite reallocates `max rowid + 1`. -/
theorem c5_counterexample :
    rowid_for_image_id
      (runOps (emptyStore 1) [Op.upsert recA [1], Op.upsert recB [1]])
      "p" "b" = some 2 ∧
    rowid_for_image_id
      (runOps (emptyStore 1)
        [Op.upsert recA [1], Op.upsert recB [1], Op.del "p" "b",
         Op.upsert recC [1]])
      "p" "c" = some 2 ∧
    (("p", "b") : String × String) ≠ ("p", "c") := by
  refine ⟨by decide, by decide, by decide⟩

/-- C5 (amended): an internal id freshly allocated by `_ensure_rowid` is
`maxId + 1`, strictly greater than every internal id currently live in
`image_ids` — ids are unique among live mappings, but an id released by
deleting the row holding the largest id can later be reassigned to a
different pair. -/
theorem c5_allocation_above_live_ids (s : Store) (pid iid : String)
    (h : rowid_for_image_id s pid iid = none) :
    (ensure_rowid s pid iid).2 = maxId s.imageIds + 1 ∧
    ∀ x ∈ keys s.imageIds, x < (ensure_rowid s pid iid).2 := by
  rcases ensure_rowid_cases s pid iid with ⟨_, hsome⟩ | ⟨_, hr, _⟩
  · simp [h] at hsome
  · refine ⟨hr, fun x hx => ?_⟩
    rw [hr]
    exact lt_of_mem_keys_maxId hx

/-- Witness for C5's amended statement on a two-row `image_ids` table. -/
theorem c5_witness :
    rowid_for_image_id
      ⟨1, SCHEMA_VERSION, ["p"], [(1, ("p", "a")), (3, ("p", "b"))], [], [], []⟩
      "p" "c" = none ∧
    (ensure_rowid
      ⟨1, SCHEMA_VERSION, ["p"], [(1, ("p", "a")), (3, ("p", "b"))], [], [], []⟩
      "p" "c").2 = maxId
        ([(1, ("p", "a")), (3, ("p", "b"))] : List (ℕ × String × String)) + 1 :=
  ⟨by decide,
   (c5_allocation_above_live_ids
     ⟨1, SCHEMA_VERSION, ["p"], [(1, ("p", "a")), (3, ("p", "b"))], [], [], []⟩
     "p" "c" (by decide)).1⟩

/-- C8 counterexample: a zero-byte local database file exists, yet restore
still runs and replaces it — restore is guarded by "exists and non-empty",
not by bare existence, so "only when no local durable database file already
exists" is false as stated. -/
theorem c8_counterexample :
    restore_db_from_r2 true (some "") (some "snapshot") = some "snapshot" ∧
    (some "" : Option String) ≠ none := by
  exact ⟨rfl, by simp⟩

/-- C8 (amended): restore runs only when the local database file is missing
or empty; it never overwrites a live non-empty local store; on download
failure it leaves the local state untouched; and when nothing was restored
the subsequent open of the absent database yields an empty store. -/
theorem c8_restore_guard (r2 : Bool) (file download : Option String) :
    (∀ c, file = some c → 0 < c.length →
      restore_db_from_r2 r2 file download = file) ∧
    (download = none → restore_db_from_r2 r2 file download = file) ∧
    (file = none → download = none →
      restore_db_from_r2 r2 file download = none) ∧
    (∀ dim, openStore ⟨dim, 0, [], [], [], [], []⟩ = emptyStore dim) := by
  refine ⟨?_, ?_, ?_, ?_⟩
  · intro c hc hlen
    subst hc
    cases r2 with
    | false => rfl
    | true =>
      unfold restore_db_from_r2
      simp [hlen]
  · intro hd
    subst hd
    cases r2 with
    | false => rfl
    | true =>
      cases file with
      | none => rfl
      | some c =>
        by_cases hlen : 0 < c.length <;> simp [restore_db_from_r2, hlen]
  · intro hf hd
    subst hf; subst hd
    cases r2 <;> rfl
  · intro dim
    exact openStore_reset ⟨dim, 0, [], [], [], [], []⟩ (by simp [SCHEMA_VERSION])

/-- Witness for C8's amended statement at concrete inputs. -/
theorem c8_witness :
    restore_db_from_r2 true (some "db") (some "snap") = some "db" ∧
    restore_db_from_r2 true (some "db") none = some "db" ∧
    restore_db_from_r2 true none none = none ∧
    openStore ⟨7, 0, [], [], [], [], []⟩ = emptyStore 7 :=
  ⟨(c8_restore_guard true (some "db") (some "snap")).1 "db" rfl (by decide),
   (c8_restore_guard true (some "db") none).2.1 rfl,
   (c8_restore_guard true none none).2.2.1 rfl rfl,
   (c8_restore_guard true none none).2.2.2 7⟩

/-- C9 counterexample: with an empty registry, looking the image-search key
up yields the `KeyError` (`none`), yet the embedding operation's gate step
catches it and proceeds ungated — the misconfiguration is silently
tolerated, not surfaced to the caller. -/
theorem c9_counterexample :
    registryGet [] IMAGE_SEARCH_KEY = none ∧
    search_images_gate [] = .ungated :=
  ⟨rfl, rfl⟩

/-- C9 (amended): looking up a never-registered resource name fails with a
`KeyError` (`none`) — distinct from gate exhaustion, which blocks on the
semaphore and raises nothing — but `register_image`/`search_images` catch
that error and run the embedding without any gate instead of surfacing it. -/
theorem c9_unregistered_lookup (r : Registry) (name : String)
    (h : ∀ e ∈ r, e.1 ≠ name) :
    registryGet r name = none ∧
    (registryGet r IMAGE_SEARCH_KEY = none →
      search_images_gate r = .ungated) := by
  constructor
  · unfold registryGet
    have hf : r.find? (fun e => e.1 = name) = none := by
      rw [List.find?_eq_none]
      intro e he
      simpa using h e he
    rw [hf]
    rfl
  · intro hg
    unfold search_images_gate
    rw [hg]

/-- Witness for C9's amended statement: a registry holding only the image
generation gate. -/
theorem c9_witness :
    registryGet [("zimage_turbo", 1)] "image_search" = none ∧
    (registryGet [("zimage_turbo", 1)] IMAGE_SEARCH_KEY = none →
      search_images_gate [("zimage_turbo", 1)] = .ungated) :=
  c9_unregistered_lookup [("zimage_turbo", 1)] "image_search" (by decide)

def liveStore : Store :=
  ⟨1, SCHEMA_VERSION, ["p"], [(1, ("p", "a"))], [(1, recA.row)],
   [(1, [1])], [(1, [1])]⟩

/-- C7: `delete_image` removes the index vector, ledger entry, identity
mapping and metadata record together in one transaction; after it the pair
no longer resolves and `get_record` is `none`; deleting a non-existent item
leaves the store unchanged; deleting twice is safe; and the service-level
`delete_image` tells its caller whether an item existed (it raises
`NOT_FOUND`/`PROJECT_NOT_FOUND` exactly when there was nothing to delete). -/
theorem c7_delete_semantics (s : Store) (pid iid : String) (hWF : s.WF) :
    (∀ r, rowid_for_image_id s pid iid = some r →
      delete_image s pid iid =
        { s with
          vIndex := alRemove r s.vIndex,
          imageIds := alRemove r s.imageIds,
          imageVectors := alRemove r s.imageVectors,
          imageRecords := alRemove r s.imageRecords } ∧
      rowid_for_image_id (delete_image s pid iid) pid iid = none ∧
      get_record (delete_image s pid iid) pid iid = none) ∧
    (rowid_for_image_id s pid iid = none → delete_image s pid iid = s) ∧
    (delete_image (delete_image s pid iid) pid iid =
      delete_image s pid iid) ∧
    ((∃ s', service_delete_image s pid iid = .deleted s') ↔
      project_exists s pid = true ∧ (get_record s pid iid).isSome = true) := by
  have hnonepart : rowid_for_image_id s pid iid = none →
      delete_image s pid iid = s := by
    intro h
    simp only [delete_image, h]
  have hsomepart : ∀ r, rowid_for_image_id s pid iid = some r →
      delete_image s pid iid =
        { s with
          vIndex := alRemove r s.vIndex,
          imageIds := alRemove r s.imageIds,
          imageVectors := alRemove r s.imageVectors,
          imageRecords := alRemove r s.imageRecords } ∧
      rowid_for_image_id (delete_image s pid iid) pid iid = none ∧
      get_record (delete_image s pid iid) pid iid = none := by
    intro r h
    have heq : delete_image s pid iid =
        { s with
          vIndex := alRemove r s.vIndex,
          imageIds := alRemove r s.imageIds,
          imageVectors := alRemove r s.imageVectors,
          imageRecords := alRemove r s.imageRecords } := by
      simp only [delete_image, h]
    have hm : (r, (pid, iid)) ∈ s.imageIds := mem_of_rowid_some h
    have hnone : rowid_for_image_id (delete_image s pid iid) pid iid = none := by
      rw [heq, rowid_none_iff]
      intro e he hpair
      obtain ⟨heM, hekey⟩ := mem_alRemove he
      have hne : e ≠ (r, (pid, iid)) := by
        intro hE
        rw [hE] at hekey
        exact hekey rfl
      have hsym : Symmetric (fun a b : ℕ × String × String => a.2 ≠ b.2) :=
        fun a b hab => fun hba => hab hba.symm
      exact (hWF.2.2.2.2.forall hsym heM hm hne) hpair
    refine ⟨heq, hnone, ?_⟩
    unfold get_record
    rw [hnone]
  have gen : ∀ t : Store, rowid_for_image_id t pid iid = none →
      delete_image t pid iid = t := by
    intro t ht
    simp only [delete_image, ht]
  refine ⟨hsomepart, hnonepart, ?_, ?_⟩
  · cases h : rowid_for_image_id s pid iid with
    | none =>
      rw [hnonepart h, hnonepart h]
    | some r =>
      exact gen _ (hsomepart r h).2.1
  · unfold service_delete_image
    by_cases hp : project_exists s pid = true
    · rw [if_neg (by simp [hp])]
      cases hg : get_record s pid iid with
      | none =>
        simp only [hg]
        constructor
        · rintro ⟨s', hs'⟩
          simp at hs'
        · rintro ⟨_, hsome⟩
          simp [hg] at hsome
      | some rec =>
        simp only [hg]
        constructor
        · intro _
          exact ⟨hp, by simp [hg]⟩
        · intro _
          exact ⟨delete_image s pid iid, rfl⟩
    · rw [if_pos (by simpa using hp)]
      constructor
      · rintro ⟨s', hs'⟩
        simp at hs'
      · rintro ⟨hpe, _⟩
        exact absurd hpe hp

/-- Witness for C7 on a one-item store. -/
theorem c7_witness :
    liveStore.WF ∧
    delete_image (delete_image liveStore "p" "a") "p" "a" =
      delete_image liveStore "p" "a" ∧
    ((∃ s', service_delete_image liveStore "p" "a" = .deleted s') ↔
      project_exists liveStore "p" = true ∧
      (get_record liveStore "p" "a").isSome = true) :=
  ⟨by decide, (c7_delete_semantics liveStore "p" "a" (by decide)).2.2.1,
   (c7_delete_semantics liveStore "p" "a" (by decide)).2.2.2⟩

theorem applyOp_upsert (s : Store) (record : ImageRecord) (vector : Emb) :
    applyOp s (.upsert record vector) =
      if vector.length = s.dim then upsertState s record vector else s := by
  by_cases hdim : vector.length = s.dim
  · rw [if_pos hdim]
    show (match upsert_image s record vector with
      | Except.ok s' => s'
      | Except.error _ => s) = upsertState s record vector
    rw [upsert_image_eq_ok _ _ _ hdim]
  · rw [if_neg hdim]
    show (match upsert_image s record vector with
      | Except.ok s' => s'
      | Except.error _ => s) = s
    unfold upsert_image
    rw [if_pos hdim]

/-! ### Index/ledger consistency of reachable states -/

theorem alRemove_of_absent {α : Type} {k : ℕ} {l : List (ℕ × α)}
    (h : ∀ e ∈ l, e.1 ≠ k) : alRemove k l = l := by
  unfold alRemove
  rw [List.filter_eq_self]
  intro e he
  simpa using h e he

theorem alSet_of_below {α : Type} {k : ℕ} (v : α) {l : List (ℕ × α)}
    (h : ∀ e ∈ l, k < e.1) : alSet k v l = (k, v) :: l := by
  cases l with
  | nil => rfl
  | cons e rest =>
    unfold alSet
    rw [if_pos (h e (List.mem_cons_self _ _))]

theorem alSet_cons_gt {α : Type} {k : ℕ} (v : α) (e : ℕ × α)
    (l : List (ℕ × α)) (h : e.1 < k) :
    alSet k v (e :: l) = e :: alSet k v l := by
  cases e with
  | mk k1 v1 =>
    simp only [alSet]
    rw [if_neg (by simp at h; omega), if_neg (by simp at h; omega)]

theorem alSet_alRemove {α : Type} {k : ℕ} (v : α) {l : List (ℕ × α)}
    (hs : sortedKeys l) : alSet k v (alRemove k l) = alSet k v l := by
  induction l with
  | nil => rfl
  | cons e rest ih =>
    rw [sortedKeys, List.pairwise_cons] at hs
    by_cases hek : e.1 = k
    · have hrest : ∀ f ∈ rest, f.1 ≠ k := by
        intro f hf
        have := hs.1 f hf
        omega
      have h1 : alRemove k (e :: rest) = alRemove k rest := by
        unfold alRemove
        rw [List.filter_cons, if_neg (by simpa using hek)]
      rw [h1, alRemove_of_absent hrest,
        alSet_of_below v (fun f hf => hek ▸ hs.1 f hf)]
      unfold alSet
      rw [if_neg (by omega), if_pos hek.symm]
    · have h1 : alRemove k (e :: rest) = e :: alRemove k rest := by
        unfold alRemove
        rw [List.filter_cons, if_pos (by simpa using hek)]
      rw [h1]
      rcases Nat.lt_trichotomy k e.1 with hlt | heq | hgt
      · have hrest : ∀ f ∈ rest, f.1 ≠ k := by
          intro f hf
          have := hs.1 f hf
          omega
        rw [alRemove_of_absent hrest]
      · exact absurd heq.symm hek
      · rw [alSet_cons_gt v e (alRemove k rest) hgt,
          alSet_cons_gt v e rest hgt, ih hs.2]

/-- Every store reachable from an empty store through `upsert_image` and
`delete_image` keeps the rebuildable virtual index exactly equal to the
ledger (the derived index is a faithful cache of `image_vectors`). -/
theorem vIndex_eq_ledger_runOps (dim : ℕ) (ops : List Op) :
    (runOps (emptyStore dim) ops).vIndex =
      (runOps (emptyStore dim) ops).imageVectors := by
  suffices h : ∀ s, s.WF → s.vIndex = s.imageVectors →
      ∀ ops', (runOps s ops').vIndex = (runOps s ops').imageVectors ∧
        (runOps s ops').WF by
    exact (h (emptyStore dim) (by simp [emptyStore, Store.WF, sortedKeys])
      rfl ops).1
  intro s hWF hconsist ops'
  induction ops' generalizing s with
  | nil => exact ⟨hconsist, hWF⟩
  | cons op rest ih =>
    have hstep : (applyOp s op).vIndex = (applyOp s op).imageVectors ∧
        (applyOp s op).WF := by
      cases op with
      | upsert record vector =>
        rw [applyOp_upsert]
        by_cases hdim : vector.length = s.dim
        · rw [if_pos hdim]
          constructor
          · rw [upsertState_vIndex, upsertState_imageVectors,
              alSet_alRemove _ hWF.2.2.2.1, hconsist]
          · exact upsertState_WF record vector hWF
        · rw [if_neg hdim]
          exact ⟨hconsist, hWF⟩
      | del pid iid =>
        show (delete_image s pid iid).vIndex =
          (delete_image s pid iid).imageVectors ∧ (delete_image s pid iid).WF
        cases hD : rowid_for_image_id s pid iid with
        | none =>
          simp only [delete_image, hD]
          exact ⟨hconsist, hWF⟩
        | some r =>
          simp only [delete_image, hD]
          obtain ⟨w1, w2, w3, w4, w5⟩ := hWF
          constructor
          · show alRemove r s.vIndex = alRemove r s.imageVectors
            rw [hconsist]
          · exact ⟨List.Pairwise.sublist (List.filter_sublist _) w1,
              List.Pairwise.sublist (List.filter_sublist _) w2,
              List.Pairwise.sublist (List.filter_sublist _) w3,
              List.Pairwise.sublist (List.filter_sublist _) w4,
              List.Pairwise.sublist (List.filter_sublist _) w5⟩
    exact ih (applyOp s op) hstep.2 hstep.1

/-- Rebuilding after clearing only the derived index leaves a store whose
virtual index holds exactly the ledger rows. -/
theorem rebuild_clear (s : Store) (hsorted : sortedKeys s.imageVectors) :
    rebuild_vector_index_from_vectors (recreate_virtual_table s) =
      { s with vIndex := s.imageVectors } := by
  unfold rebuild_vector_index_from_vectors recreate_virtual_table
  by_cases hv : s.imageVectors = []
  · simp [hv]
  · simp only [hv, if_neg, ite_false]
    rw [show ({ s with vIndex := [] } : Store).imageVectors = s.imageVectors
      from rfl]
    rw [foldl_alSet_sorted s.imageVectors [] (by simpa using hsorted)]
    simp

/-- C2: `rebuild_vector_index_from_vectors` on a store whose derived index
was artificially cleared reinserts exactly every `(internal_id, embedding)`
pair of the ledger (also when the ledger is empty, where the early return
leaves the cleared index empty); consequently, when the index was consistent
with the ledger before the simulated loss, every subsequent scoped or
unscoped search returns exactly the results it returned before. -/
theorem c2_rebuild_from_ledger (s : Store) (pid : String) (q : Emb) (k : Int)
    (hsorted : sortedKeys s.imageVectors) :
    (rebuild_vector_index_from_vectors (recreate_virtual_table s)).vIndex =
      s.imageVectors ∧
    (∀ dim ops, (runOps (emptyStore dim) ops).vIndex =
      (runOps (emptyStore dim) ops).imageVectors) ∧
    (s.vIndex = s.imageVectors →
      search_records (rebuild_vector_index_from_vectors
          (recreate_virtual_table s)) pid q k =
        search_records s pid q k ∧
      search (rebuild_vector_index_from_vectors
          (recreate_virtual_table s)) q k = search s q k) := by
  refine ⟨?_, vIndex_eq_ledger_runOps, ?_⟩
  · rw [rebuild_clear s hsorted]
  · intro hconsist
    have hstore : rebuild_vector_index_from_vectors
        (recreate_virtual_table s) = s := by
      rw [rebuild_clear s hsorted]
      obtain ⟨d, ver, pr, ids, recs, vecs, vidx⟩ := s
      simp_all
    rw [hstore]
    exact ⟨rfl, rfl⟩

/-- Witness for C2 on a consistent one-item store. -/
theorem c2_witness :
    sortedKeys liveStore.imageVectors ∧
    liveStore.vIndex = liveStore.imageVectors ∧
    (rebuild_vector_index_from_vectors
      (recreate_virtual_table liveStore)).vIndex = liveStore.imageVectors ∧
    search_records (rebuild_vector_index_from_vectors
        (recreate_virtual_table liveStore)) "p" [1] 5 =
      search_records liveStore "p" [1] 5 :=
  ⟨by decide, by decide,
   (c2_rebuild_from_ledger liveStore "p" [1] 5 (by decide)).1,
   ((c2_rebuild_from_ledger liveStore "p" [1] 5 (by decide)).2.2 (by decide)).1⟩

/-! ### Cross-table invariant -/

/-- The cross-table invariant: well-formedness plus "records and ledger hold
exactly the same internal ids, all of which are mapped in `image_ids`". -/
def StoreInv (s : Store) : Prop :=
  s.WF ∧ keys s.imageRecords = keys s.imageVectors ∧
  ∀ x ∈ keys s.imageRecords, x ∈ keys s.imageIds

theorem storeInv_upsertState {s : Store} (record : ImageRecord) (v : Emb)
    (h : StoreInv s) : StoreInv (upsertState s record v) := by
  obtain ⟨hWF, hkeys, hsub⟩ := h
  refine ⟨upsertState_WF record v hWF, ?_, ?_⟩
  · rw [upsertState_imageRecords, upsertState_imageVectors,
      keys_alSet, keys_alSet, hkeys]
  · intro x hx
    rw [upsertState_imageRecords, keys_alSet, mem_insKey] at hx
    rw [upsertState_imageIds]
    rcases hx with hx | hx
    · exact hx ▸ mem_keys_of_mem (upsertRid_mem s record)
    · exact upsertIds_superset record (hsub x hx)

theorem storeInv_delete {s : Store} (pid iid : String)
    (h : StoreInv s) : StoreInv (delete_image s pid iid) := by
  obtain ⟨⟨w1, w2, w3, w4, w5⟩, hkeys, hsub⟩ := h
  cases hD : rowid_for_image_id s pid iid with
  | none =>
    simp only [delete_image, hD]
    exact ⟨⟨w1, w2, w3, w4, w5⟩, hkeys, hsub⟩
  | some r =>
    simp only [delete_image, hD]
    refine ⟨⟨List.Pairwise.sublist (List.filter_sublist _) w1,
      List.Pairwise.sublist (List.filter_sublist _) w2,
      List.Pairwise.sublist (List.filter_sublist _) w3,
      List.Pairwise.sublist (List.filter_sublist _) w4,
      List.Pairwise.sublist (List.filter_sublist _) w5⟩, ?_, ?_⟩
    · show keys (alRemove r s.imageRecords) = keys (alRemove r s.imageVectors)
      rw [keys_alRemove, keys_alRemove, hkeys]
    · intro x hx
      show x ∈ keys (alRemove r s.imageIds)
      rw [keys_alRemove] at hx ⊢
      have hx' := List.mem_filter.mp hx
      exact List.mem_filter.mpr ⟨hsub x hx'.1, hx'.2⟩

theorem storeInv_applyOp {s : Store} (op : Op) (h : StoreInv s) :
    StoreInv (applyOp s op) := by
  cases op with
  | upsert record vector =>
    rw [applyOp_upsert]
    by_cases hdim : vector.length = s.dim
    · rw [if_pos hdim]
      exact storeInv_upsertState record vector h
    · rw [if_neg hdim]
      exact h
  | del pid iid => exact storeInv_delete pid iid h

theorem storeInv_runOps (dim : ℕ) (ops : List Op) :
    StoreInv (runOps (emptyStore dim) ops) := by
  suffices h : ∀ s, StoreInv s → StoreInv (runOps s ops) by
    refine h _ ?_
    refine ⟨⟨?_, ?_, ?_, ?_, ?_⟩, rfl, by intro x hx; exact hx⟩ <;>
      simp [emptyStore, sortedKeys]
  induction ops with
  | nil => exact fun s hs => hs
  | cons op rest ih =>
    intro s hs
    exact ih _ (storeInv_applyOp op hs)

/-- C10: starting from an empty store, every sequence of `upsert_image` and
`delete_image` operations preserves the invariant that the internal ids in
`image_records` are exactly those in `image_vectors`, and every such id is
also present in `image_ids`. -/
theorem c10_cross_table_invariant (dim : ℕ) (ops : List Op) :
    (∀ x, x ∈ keys (runOps (emptyStore dim) ops).imageRecords ↔
      x ∈ keys (runOps (emptyStore dim) ops).imageVectors) ∧
    ∀ x ∈ keys (runOps (emptyStore dim) ops).imageRecords,
      x ∈ keys (runOps (emptyStore dim) ops).imageIds := by
  have h := storeInv_runOps dim ops
  exact ⟨fun x => by rw [h.2.1], h.2.2⟩

/-- Witness for C10 on a concrete operation sequence (two upserts, one
delete, one re-upsert, one mismatched upsert that is rejected). -/
theorem c10_witness :
    (∀ x, x ∈ keys (runOps (emptyStore 1)
        [Op.upsert recA [1], Op.upsert recB [1], Op.del "p" "b",
         Op.upsert recC [1], Op.upsert recA [1, 2]]).imageRecords ↔
      x ∈ keys (runOps (emptyStore 1)
        [Op.upsert recA [1], Op.upsert recB [1], Op.del "p" "b",
         Op.upsert recC [1], Op.upsert recA [1, 2]]).imageVectors) ∧
    ∀ x ∈ keys (runOps (emptyStore 1)
        [Op.upsert recA [1], Op.upsert recB [1], Op.del "p" "b",
         Op.upsert recC [1], Op.upsert recA [1, 2]]).imageRecords,
      x ∈ keys (runOps (emptyStore 1)
        [Op.upsert recA [1], Op.upsert recB [1], Op.del "p" "b",
         Op.upsert recC [1], Op.upsert recA [1, 2]]).imageIds :=
  c10_cross_table_invariant 1
    [Op.upsert recA [1], Op.upsert recB [1], Op.del "p" "b",
     Op.upsert recC [1], Op.upsert recA [1, 2]]

/-! ### Search contract -/

theorem searchRow_some {s : Store} {pid : String} {q : Emb} {a : ℕ × Emb}
    {x : ImageRecord × ℚ} (h : searchRow s pid q a = some x) :
    x.1.project_id = pid ∧ x.2 = 1 - cosDist q a.2 := by
  unfold searchRow at h
  cases hids : alGet a.1 s.imageIds with
  | none => rw [hids] at h; cases h
  | some pi =>
    rw [hids] at h
    cases hrec : alGet a.1 s.imageRecords with
    | none => rw [hrec] at h; cases h
    | some row =>
      rw [hrec] at h
      have h' : (if pi.1 = pid then
          some (row.toRecord pi.1 pi.2, 1 - cosDist q a.2) else none) =
          some x := h
      by_cases hp : pi.1 = pid
      · rw [if_pos hp] at h'
        cases h'
        exact ⟨hp, rfl⟩
      · rw [if_neg hp] at h'
        cases h' 

/-- C6: for every project, query of the store's dimension and limit `k`,
`search_records` never errors; it returns at most `k` results, all from the
requested project, each scored as `1 − distance` of some index entry, in
non-increasing score order; `k ≤ 0` short-circuits to `[]` and an empty
project yields `[]`. -/
theorem c6_search_contract (s : Store) (pid : String) (q : Emb) (k : Int)
    (hdim : q.length = s.dim) :
    (k ≤ 0 → search_records s pid q k = .ok []) ∧
    (∃ l, search_records s pid q k = .ok l ∧
      l.length ≤ k.toNat ∧
      (∀ x ∈ l, x.1.project_id = pid) ∧
      (∀ x ∈ l, ∃ e ∈ s.vIndex, x.2 = 1 - cosDist q e.2) ∧
      l.Pairwise (fun a b => b.2 ≤ a.2)) ∧
    ((∀ e ∈ s.imageIds, e.2.1 ≠ pid) → search_records s pid q k = .ok []) := by
  have hk0 : k ≤ 0 → search_records s pid q k = .ok [] := by
    intro hk
    unfold search_records
    rw [if_pos hk]
  by_cases hk : k ≤ 0
  · refine ⟨hk0, ⟨[], hk0 hk, by simp, by simp, by simp, by simp⟩,
      fun _ => hk0 hk⟩
  · have hopen : search_records s pid q k =
        .ok (List.insertionSort simGE
          ((knn_search s q k.toNat).filterMap (searchRow s pid q))) := by
      unfold search_records
      rw [if_neg hk, if_neg (by omega)]
    refine ⟨hk0, ?_, ?_⟩
    · refine ⟨_, hopen, ?_, ?_, ?_, ?_⟩
      · calc (List.insertionSort simGE
            ((knn_search s q k.toNat).filterMap (searchRow s pid q))).length
            = ((knn_search s q k.toNat).filterMap (searchRow s pid q)).length :=
              (List.perm_insertionSort _ _).length_eq
          _ ≤ (knn_search s q k.toNat).length := List.length_filterMap_le _ _
          _ ≤ k.toNat := by
              unfold knn_search
              exact List.length_take_le _ _
      · intro x hx
        have hx' := (List.perm_insertionSort simGE _).mem_iff.mp hx
        obtain ⟨a, _, ha⟩ := List.mem_filterMap.mp hx'
        exact (searchRow_some ha).1
      · intro x hx
        have hx' := (List.perm_insertionSort simGE _).mem_iff.mp hx
        obtain ⟨a, haknn, ha⟩ := List.mem_filterMap.mp hx'
        have hamem : a ∈ s.vIndex := by
          have h1 : a ∈ List.insertionSort (knnLE q) s.vIndex :=
            List.take_subset _ _ haknn
          exact (List.perm_insertionSort (knnLE q) s.vIndex).mem_iff.mp h1
        exact ⟨a, hamem, (searchRow_some ha).2⟩
      · exact List.sorted_insertionSort simGE _
    · intro hproj
      have hnil : (knn_search s q k.toNat).filterMap (searchRow s pid q)
          = [] := by
        rw [List.filterMap_eq_nil_iff]
        intro a _
        unfold searchRow
        cases hids : alGet a.1 s.imageIds with
        | none => rfl
        | some pi =>
          have hmem := mem_of_alGet hids
          have hne := hproj _ hmem
          cases hrec : alGet a.1 s.imageRecords with
          | none => rfl
          | some row =>
            show (if pi.1 = pid then
              some (row.toRecord pi.1 pi.2, 1 - cosDist q a.2) else none) =
              none
            rw [if_neg (by simpa using hne)]
      rw [hopen, hnil]
      rfl

/-- Witness for C6 on a one-item store with limits 0 and 5. -/
theorem c6_witness :
    ([1] : Emb).length = liveStore.dim ∧
    search_records liveStore "p" [1] 0 = .ok [] ∧
    (∃ l, search_records liveStore "p" [1] 5 = .ok l ∧
      l.length ≤ (5 : Int).toNat ∧
      (∀ x ∈ l, x.1.project_id = "p") ∧
      (∀ x ∈ l, ∃ e ∈ liveStore.vIndex, x.2 = 1 - cosDist [1] e.2) ∧
      l.Pairwise (fun a b => b.2 ≤ a.2)) :=
  ⟨by decide,
   (c6_search_contract liveStore "p" [1] 0 (by decide)).1 (by decide),
   (c6_search_contract liveStore "p" [1] 5 (by decide)).2.1⟩

/-! ### Round-trip -/

theorem row_toRecord (r : ImageRecord) :
    r.row.toRecord r.project_id r.id = r := by
  cases r
  rfl

/-- C1: upserting a valid record with a valid embedding and then reading the
same `(project_id, item_id)` back returns a record equal to the input, and a
search in that project with the same embedding as the query returns that
item first with similarity exactly 1 (the exact-arithmetic counterpart of
"≈ 1.0"); the hypotheses ask for a non-degenerate embedding, a positive
limit, and that no already-indexed vector is cosine-identical to the query
(the spec leaves the order of exact ties arbitrary). -/
theorem c1_upsert_roundtrip (s : Store) (record : ImageRecord) (e : Emb)
    (k : Int) (hWF : s.WF) (hdim : e.length = s.dim) (hnz : dot e e ≠ 0)
    (hk : 1 ≤ k) (hsep : ∀ p ∈ s.vIndex, simScore e p.2 < 1) :
    upsert_image s record e = .ok (upsertState s record e) ∧
    get_record (upsertState s record e) record.project_id record.id =
      some record ∧
    ∃ rest, search_records (upsertState s record e) record.project_id e k =
      .ok ((record, 1) :: rest) := by
  have hidssorted : sortedKeys (upsertIds s record) :=
    upsertIds_sorted record hWF.1
  have hidsuniq : (upsertIds s record).Pairwise (fun a b => a.2 ≠ b.2) :=
    upsertIds_unique record hWF.2.2.2.2
  have hmem := upsertRid_mem s record
  have hu' : (upsertState s record e).imageIds.Pairwise
      (fun a b => a.2 ≠ b.2) := by
    rw [upsertState_imageIds]; exact hidsuniq
  have hm' : (upsertRid s record, (record.project_id, record.id)) ∈
      (upsertState s record e).imageIds := by
    rw [upsertState_imageIds]; exact hmem
  have hrowid : rowid_for_image_id (upsertState s record e)
      record.project_id record.id = some (upsertRid s record) :=
    rowid_of_mem hu' hm'
  have hrec : alGet (upsertRid s record)
      (upsertState s record e).imageRecords = some record.row := by
    rw [upsertState_imageRecords]
    exact alGet_alSet_self _ _ _
  have hget : get_record (upsertState s record e)
      record.project_id record.id = some record := by
    unfold get_record
    rw [hrowid]
    show Option.map (fun row => row.toRecord record.project_id record.id)
      (alGet (upsertRid s record) (upsertState s record e).imageRecords) =
      some record
    rw [hrec]
    simp [row_toRecord]
  refine ⟨upsert_image_eq_ok s record e hdim, hget, ?_⟩
  -- search
  have hd0 : cosDist e e = 0 := cosDist_self hnz
  have hvidx := upsertState_vIndex s record e
  have hWFu := upsertState_WF record e hWF
  have hourmem : (upsertRid s record, e) ∈ (upsertState s record e).vIndex := by
    rw [hvidx]
    exact self_mem_alSet _ _ _
  have hothers : ∀ y ∈ (upsertState s record e).vIndex,
      y ≠ (upsertRid s record, e) → 0 < cosDist e y.2 := by
    intro y hy hne
    rw [hvidx] at hy
    rcases mem_alSet hy with h | h
    · exact absurd h hne
    · exact cosDist_pos (hsep y (mem_alRemove h).1)
  have hsortlist :=
    List.sorted_insertionSort (knnLE e) (upsertState s record e).vIndex
  have hmemsort : (upsertRid s record, e) ∈
      List.insertionSort (knnLE e) (upsertState s record e).vIndex :=
    (List.perm_insertionSort _ _).mem_iff.mpr hourmem
  have hmin : ∀ y ∈ List.insertionSort (knnLE e)
      (upsertState s record e).vIndex, y ≠ (upsertRid s record, e) →
      ¬ knnLE e y (upsertRid s record, e) := by
    intro y hy hne
    have hy' : y ∈ (upsertState s record e).vIndex :=
      (List.perm_insertionSort _ _).mem_iff.mp hy
    have hpos := hothers y hy' hne
    unfold knnLE
    rintro (hlt | ⟨heq, _⟩)
    · rw [show ((upsertRid s record, e) : ℕ × Emb).2 = e from rfl, hd0]
        at hlt
      linarith
    · rw [show ((upsertRid s record, e) : ℕ × Emb).2 = e from rfl, hd0]
        at heq
      linarith
  have hhead : (List.insertionSort (knnLE e)
      (upsertState s record e).vIndex).head? =
      some (upsertRid s record, e) :=
    head_eq_of_sorted_min hsortlist hmemsort hmin
  have hknnhead : (knn_search (upsertState s record e) e k.toNat).head? =
      some (upsertRid s record, e) := by
    unfold knn_search
    rw [head?_take (by omega) _]
    exact hhead
  obtain ⟨restK, hknn⟩ : ∃ restK,
      knn_search (upsertState s record e) e k.toNat =
        (upsertRid s record, e) :: restK := by
    cases hl : knn_search (upsertState s record e) e k.toNat with
    | nil => rw [hl] at hknnhead; cases hknnhead
    | cons a t =>
      rw [hl] at hknnhead
      simp only [List.head?_cons, Option.some.injEq] at hknnhead
      exact ⟨t, by rw [hknnhead]⟩
  have hga : alGet (upsertRid s record)
      (upsertState s record e).imageIds =
      some (record.project_id, record.id) := by
    rw [upsertState_imageIds]
    exact alGet_of_mem hidssorted hmem
  have hrowours : searchRow (upsertState s record e) record.project_id e
      (upsertRid s record, e) = some (record, 1) := by
    unfold searchRow
    rw [hga, hrec]
    show (if (record.project_id, record.id).1 = record.project_id then
      some ((record.row).toRecord (record.project_id, record.id).1
        (record.project_id, record.id).2,
        1 - cosDist e ((upsertRid s record, e) : ℕ × Emb).2) else none) =
      some (record, 1)
    rw [if_pos rfl]
    rw [show ((upsertRid s record, e) : ℕ × Emb).2 = e from rfl, hd0]
    simp [row_toRecord]
  have hopen : search_records (upsertState s record e) record.project_id e k
      = .ok (List.insertionSort simGE
        ((knn_search (upsertState s record e) e k.toNat).filterMap
          (searchRow (upsertState s record e) record.project_id e))) := by
    unfold search_records
    rw [if_neg (by omega), if_neg (by rw [upsertState_dim]; omega)]
  have hrows : (knn_search (upsertState s record e) e k.toNat).filterMap
      (searchRow (upsertState s record e) record.project_id e) =
      (record, 1) :: restK.filterMap
        (searchRow (upsertState s record e) record.project_id e) := by
    rw [hknn, List.filterMap_cons, hrowours]
  have hfs := List.sorted_insertionSort simGE
    ((record, 1) :: restK.filterMap
      (searchRow (upsertState s record e) record.project_id e))
  have hmemf : ((record, 1) : ImageRecord × ℚ) ∈ List.insertionSort simGE
      ((record, 1) :: restK.filterMap
        (searchRow (upsertState s record e) record.project_id e)) :=
    (List.perm_insertionSort _ _).mem_iff.mpr (List.mem_cons_self _ _)
  have hminf : ∀ y ∈ List.insertionSort simGE
      ((record, 1) :: restK.filterMap
        (searchRow (upsertState s record e) record.project_id e)),
      y ≠ (record, 1) → ¬ simGE y (record, 1) := by
    intro y hy hne
    have hy' := (List.perm_insertionSort _ _).mem_iff.mp hy
    rcases List.mem_cons.mp hy' with h | h
    · exact absurd h hne
    · obtain ⟨a, haK, ha⟩ := List.mem_filterMap.mp h
      have haknn : a ∈ knn_search (upsertState s record e) e k.toNat := by
        rw [hknn]
        exact List.mem_cons_of_mem _ haK
      have havi : a ∈ (upsertState s record e).vIndex := by
        have h1 : a ∈ List.insertionSort (knnLE e)
            (upsertState s record e).vIndex := by
          unfold knn_search at haknn
          exact List.take_subset _ _ haknn
        exact (List.perm_insertionSort _ _).mem_iff.mp h1
      by_cases hae : a = (upsertRid s record, e)
      · rw [hae, hrowours] at ha
        cases ha
        exact absurd rfl hne
      · have hpos := hothers a havi hae
        have hsim := (searchRow_some ha).2
        unfold simGE
        intro hge
        rw [hsim] at hge
        simp only at hge
        linarith
  have hheadf := head_eq_of_sorted_min hfs hmemf hminf
  cases hL : List.insertionSort simGE
      ((record, 1) :: restK.filterMap
        (searchRow (upsertState s record e) record.project_id e)) with
  | nil => rw [hL] at hheadf; cases hheadf
  | cons b t =>
    rw [hL] at hheadf
    simp only [List.head?_cons, Option.some.injEq] at hheadf
    refine ⟨t, ?_⟩
    rw [hopen, hrows, hL, hheadf]

/-- Witness for C1: dimension-1 store, embedding `[1]`, limit 1. -/
theorem c1_witness :
    (emptyStore 1).WF ∧
    upsert_image (emptyStore 1) sampleRecord [1] =
      .ok (upsertState (emptyStore 1) sampleRecord [1]) ∧
    get_record (upsertState (emptyStore 1) sampleRecord [1])
      "demo" "img-1" = some sampleRecord ∧
    ∃ rest, search_records (upsertState (emptyStore 1) sampleRecord [1])
      "demo" [1] 1 = .ok ((sampleRecord, 1) :: rest) :=
  ⟨by decide,
   (c1_upsert_roundtrip (emptyStore 1) sampleRecord [1] 1 (by decide)
     (by decide) (by norm_num [dot]) (by decide) (by decide)).1,
   (c1_upsert_roundtrip (emptyStore 1) sampleRecord [1] 1 (by decide)
     (by decide) (by norm_num [dot]) (by decide) (by decide)).2.1,
   (c1_upsert_roundtrip (emptyStore 1) sampleRecord [1] 1 (by decide)
     (by decide) (by norm_num [dot]) (by decide) (by decide)).2.2⟩

